import Mathlib

/-!
Verification of the Transmission-vs-Congestion Delay Analyzer.

This file gives a shallow embedding, over `ℚ`, of the two source files of the
repository:

* `pooja.py` — the `Packet` data class, the discrete-event single-server FIFO
  queue simulator `simulate_queue`, and the sweep driver `run_experiments`;
* `delay_analyzer.py` — the closed-form delay formulas `transmission_delay`,
  `propagation_delay` and `congestion_delay`.

Python `float` values are modelled as rationals, and the `float('inf')`
sentinels used for the next-arrival and departure clocks are modelled with
`WithTop ℚ`.  The ambient randomness (`random.expovariate` and the pluggable
`service_time_sampler`) is made explicit: each simulation run receives two
sample streams `ia sv : ℕ → ℚ`, where `ia n` is the value returned by the
`n`-th call to `random.expovariate(arrival_rate)` and `sv n` the value
returned by the `n`-th call to `service_time_sampler()`.  The `while` loop of
`simulate_queue` is embedded as a step function `simStep` (one loop iteration,
`none` meaning the loop exits) iterated with fuel; the fuel `3 * max_packets + 1`
is proved sufficient below (`simLoopFuel_done`), so the fuelled run agrees with
the Python loop.
-/

/-- The `Packet` class of `pooja.py`: created at its arrival time with both
service timestamps unset (`None`). -/
structure Packet where
  arrival_time : ℚ
  start_service : Option ℚ
  departure_time : Option ℚ
deriving DecidableEq

/-- The local state of the `while` loop of `simulate_queue` in `pooja.py`.
`ia_idx` and `sv_idx` count how many samples of the inter-arrival stream and
of the service-time stream have been consumed so far. -/
structure SimState where
  t : ℚ
  next_arrival : WithTop ℚ
  queue : List Packet
  server_busy : Bool
  departure_time : WithTop ℚ
  packets_completed : List Packet
  current_serving : Option Packet
  packet_count : ℕ
  ia_idx : ℕ
  sv_idx : ℕ
deriving DecidableEq

/-- Arrival event with an idle server (`pooja.py` lines 34-47, `not server_busy`
branch): the new packet starts service immediately at `tN`, one service sample
is drawn, and the next arrival is scheduled at `tN` plus a fresh
inter-arrival sample. -/
def doArrivalIdle (ia sv : ℕ → ℚ) (tN : ℚ) (s : SimState) : SimState :=
  { s with
    t := tN
    next_arrival := ((tN + ia s.ia_idx : ℚ) : WithTop ℚ)
    packet_count := s.packet_count + 1
    ia_idx := s.ia_idx + 1
    current_serving := some ⟨tN, some tN, some (tN + sv s.sv_idx)⟩
    departure_time := ((tN + sv s.sv_idx : ℚ) : WithTop ℚ)
    server_busy := true
    sv_idx := s.sv_idx + 1 }

/-- Arrival event with a busy server (`pooja.py` lines 34-47, `else` branch):
the new packet joins the tail of the waiting line. -/
def doArrivalBusy (ia : ℕ → ℚ) (tN : ℚ) (s : SimState) : SimState :=
  { s with
    t := tN
    next_arrival := ((tN + ia s.ia_idx : ℚ) : WithTop ℚ)
    packet_count := s.packet_count + 1
    ia_idx := s.ia_idx + 1
    queue := s.queue ++ [⟨tN, none, none⟩] }

/-- Departure event with an empty waiting line (`pooja.py` lines 52-66,
`else` branch): record the served packet and make the server idle. -/
def doDepartIdle (tN : ℚ) (s : SimState) : SimState :=
  { s with
    t := tN
    packets_completed := s.packets_completed ++ s.current_serving.toList
    server_busy := false
    departure_time := ⊤
    current_serving := none }

instance : Inhabited Packet := ⟨⟨0, none, none⟩⟩

/-- Departure event with a non-empty waiting line (`pooja.py` lines 52-62):
record the served packet, pop the head of the FIFO line (`queue.popleft()`)
and start its service at `tN` with a fresh service sample. -/
def doDepartServe (sv : ℕ → ℚ) (tN : ℚ) (s : SimState) : SimState :=
  { s with
    t := tN
    packets_completed := s.packets_completed ++ s.current_serving.toList
    queue := s.queue.tail
    current_serving := some { s.queue.headI with
                              start_service := some tN,
                              departure_time := some (tN + sv s.sv_idx) }
    departure_time := ((tN + sv s.sv_idx : ℚ) : WithTop ℚ)
    server_busy := true
    sv_idx := s.sv_idx + 1 }

/-- One iteration of the `while` loop of `simulate_queue` (`pooja.py` lines
31-66).  `none` means the loop exits here: either the loop condition
`t < sim_time and packet_count < max_packets` fails, or the `break` on line 51
fires because the pending departure lies strictly beyond the horizon. -/
def simStep (ia sv : ℕ → ℚ) (sim_time : ℚ) (max_packets : ℕ)
    (s : SimState) : Option SimState :=
  if s.t < sim_time ∧ s.packet_count < max_packets then
    if s.next_arrival ≤ s.departure_time ∧ s.next_arrival ≤ (sim_time : WithTop ℚ) then
      if s.server_busy then some (doArrivalBusy ia (s.next_arrival.untop' 0) s)
      else some (doArrivalIdle ia sv (s.next_arrival.untop' 0) s)
    else
      if (sim_time : WithTop ℚ) < s.departure_time then none
      else
        if s.queue = [] then some (doDepartIdle (s.departure_time.untop' 0) s)
        else some (doDepartServe sv (s.departure_time.untop' 0) s)
  else none

/-- The `while` loop of `simulate_queue`, iterated with fuel. -/
def simLoopFuel (ia sv : ℕ → ℚ) (sim_time : ℚ) (max_packets : ℕ) :
    ℕ → SimState → SimState
  | 0, s => s
  | n + 1, s =>
    match simStep ia sv sim_time max_packets s with
    | none => s
    | some s' => simLoopFuel ia sv sim_time max_packets n s'

/-- The state of `simulate_queue` just before its `while` loop (`pooja.py`
lines 22-29).  When `arrival_rate > 0` the first inter-arrival sample is
consumed for the initial `next_arrival`; otherwise `next_arrival = inf`. -/
def initState (arrival_rate : ℚ) (ia : ℕ → ℚ) : SimState :=
  { t := 0
    next_arrival := if 0 < arrival_rate then ((ia 0 : ℚ) : WithTop ℚ) else ⊤
    queue := []
    server_busy := false
    departure_time := ⊤
    packets_completed := []
    current_serving := none
    packet_count := 0
    ia_idx := if 0 < arrival_rate then 1 else 0
    sv_idx := 0 }

/-- Termination measure for the simulation loop: it strictly decreases on
every `some` step of `simStep`. -/
def simMeasure (max_packets : ℕ) (s : SimState) : ℕ :=
  3 * (max_packets - s.packet_count) + 2 * s.queue.length +
    (if s.departure_time = ⊤ then 0 else 1) + 1

/-- The state of `simulate_queue` after its `while` loop has finished; the
fuel `3 * max_packets + 1` bounds the measure of the initial state and is
proved sufficient below. -/
def finalState (arrival_rate : ℚ) (ia sv : ℕ → ℚ) (sim_time : ℚ)
    (max_packets : ℕ) : SimState :=
  simLoopFuel ia sv sim_time max_packets (3 * max_packets + 1)
    (initState arrival_rate ia)

/-- The result-collection loop of `simulate_queue` (`pooja.py` lines 68-76).
`p.departure_time - p.arrival_time` raises a `TypeError` in Python when
`departure_time` is `None`, which is modelled by returning `none` for the
whole call.  The queueing delay uses Python truthiness:
`p.start_service - p.arrival_time if p.start_service else 0.0`, so an unset
*or zero* `start_service` yields `0.0`. -/
def collectResults : List Packet → Option (List ℚ × List ℚ)
  | [] => some ([], [])
  | p :: ps =>
    match p.departure_time with
    | none => none
    | some d =>
      match collectResults ps with
      | none => none
      | some (delays, queueing_times) =>
        let q_delay : ℚ :=
          match p.start_service with
          | none => 0
          | some ss => if ss = 0 then 0 else ss - p.arrival_time
        some ((d - p.arrival_time) :: delays, q_delay :: queueing_times)

/-- `simulate_queue(arrival_rate, service_time_sampler, sim_time, max_packets)`
of `pooja.py` (lines 17-76), with the randomness made explicit as the streams
`ia` (inter-arrival samples) and `sv` (service-time samples).  Returns `none`
exactly when the Python function would raise. -/
def simulate_queue (arrival_rate : ℚ) (ia sv : ℕ → ℚ) (sim_time : ℚ)
    (max_packets : ℕ) : Option (List ℚ × List ℚ) :=
  collectResults (finalState arrival_rate ia sv sim_time max_packets).packets_completed

/-- Result value of the closed-form delay functions of `delay_analyzer.py`
and of the row entries of `run_experiments`: either a finite rational, the
`float('inf')` sentinel, or the `float('nan')` sentinel. -/
inductive RVal where
  | fin : ℚ → RVal
  | inf : RVal
  | nan : RVal
deriving DecidableEq

/-- Round-half-to-even to an integer, as Python's builtin `round` does. -/
def roundHalfEven (x : ℚ) : ℤ :=
  let f := ⌊x⌋
  if x - f < 1 / 2 then f
  else if 1 / 2 < x - f then f + 1
  else if f % 2 = 0 then f else f + 1

/-- Python's `round(x, 6)`: round to six decimal places. -/
def round6 (x : ℚ) : ℚ :=
  (roundHalfEven (x * 1000000) : ℚ) / 1000000

/-- `transmission_delay` of `delay_analyzer.py` (lines 41-49): the quotient
rounded to six decimals; a `ZeroDivisionError` (zero bandwidth) is caught and
turned into `float('inf')`. -/
def transmission_delay (packet_size_bits bandwidth_bps : ℚ) : RVal :=
  if bandwidth_bps = 0 then RVal.inf
  else RVal.fin (round6 (packet_size_bits / bandwidth_bps))

/-- `propagation_delay` of `delay_analyzer.py` (lines 51-59). -/
def propagation_delay (distance_km propagation_speed_kmps : ℚ) : RVal :=
  if propagation_speed_kmps = 0 then RVal.inf
  else RVal.fin (round6 (distance_km / propagation_speed_kmps))

/-- `congestion_delay` of `delay_analyzer.py` (lines 61-71): `float('inf')`
when the service rate is at most the arrival rate, otherwise the quotient
rounded to six decimals (the `ZeroDivisionError` handler is unreachable since
the denominator is positive in the remaining case). -/
def congestion_delay (queue_length avg_packet_arrival_rate avg_packet_service_rate : ℚ) : RVal :=
  if avg_packet_service_rate ≤ avg_packet_arrival_rate then RVal.inf
  else RVal.fin (round6 (queue_length / (avg_packet_service_rate - avg_packet_arrival_rate)))

/-- One row of the table built by `run_experiments` (`pooja.py` lines
120-131), with the fields in the order of the Python dict. -/
structure ExpRow where
  rho : ℚ
  arrival_rate_pkts_s : ℚ
  service_rate_pkts_s : ℚ
  tx_delay_s : ℚ
  sim_total_mm1_s : RVal
  sim_queue_mm1_s : ℚ
  sim_total_md1_s : RVal
  sim_queue_md1_s : ℚ
  analytic_mm1_total_s : RVal
  analytic_mm1_queue_s : RVal
deriving DecidableEq

/-- `statistics.mean` on a list of rationals (only applied to non-empty
lists by `run_experiments`). -/
def listMean (l : List ℚ) : ℚ := l.sum / l.length

/-- The body of the `for rho in rho_list` loop of `run_experiments`
(`pooja.py` lines 94-131).  The index `i` selects, for the `i`-th value of
`rho`, the sample streams consumed by its two simulation runs: `iaMM i` and
`svMM i` feed the M/M/1 run, `iaMD i` feeds the M/D/1 run whose service
sampler constantly returns the mean service time `stm`. -/
def buildRows (mu stm sim_time : ℚ) (iaMM svMM iaMD : ℕ → ℕ → ℚ) :
    ℕ → List ℚ → Option (List ExpRow)
  | _, [] => some []
  | i, rho :: rest =>
    let lam := rho * mu
    match simulate_queue lam (iaMM i) (svMM i) sim_time 2000000 with
    | none => none
    | some (delays_mm, q_mm) =>
      match simulate_queue lam (iaMD i) (fun _ => stm) sim_time 2000000 with
      | none => none
      | some (delays_md, q_md) =>
        let row : ExpRow :=
          { rho := rho
            arrival_rate_pkts_s := lam
            service_rate_pkts_s := mu
            tx_delay_s := stm
            sim_total_mm1_s :=
              if delays_mm = [] then RVal.nan else RVal.fin (listMean delays_mm)
            sim_queue_mm1_s := if q_mm = [] then 0 else listMean q_mm
            sim_total_md1_s :=
              if delays_md = [] then RVal.nan else RVal.fin (listMean delays_md)
            sim_queue_md1_s := if q_md = [] then 0 else listMean q_md
            analytic_mm1_total_s :=
              if lam < mu then RVal.fin (1 / (mu - lam)) else RVal.inf
            analytic_mm1_queue_s :=
              if lam < mu then RVal.fin (rho / (mu - lam)) else RVal.inf }
        match buildRows mu stm sim_time iaMM svMM iaMD (i + 1) rest with
        | none => none
        | some rows => some (row :: rows)

/-- `run_experiments(packet_size_bytes, bandwidth_bps, rho_list, sim_time)`
of `pooja.py` (lines 81-133).  The two `none` guards model the Python
`ZeroDivisionError`s: `bandwidth_bps / L_bits` raises when `L_bits == 0`, and
`1.0 / service_rate_packets` raises when the service rate is zero.  Each
simulation call uses the default `max_packets = int(2e6)`. -/
def run_experiments (packet_size_bytes bandwidth_bps : ℚ) (rho_list : List ℚ)
    (sim_time : ℚ) (iaMM svMM iaMD : ℕ → ℕ → ℚ) : Option (List ExpRow) :=
  let L_bits := packet_size_bytes * 8
  if L_bits = 0 then none
  else
    let service_rate_packets := bandwidth_bps / L_bits
    if service_rate_packets = 0 then none
    else buildRows service_rate_packets (1 / service_rate_packets) sim_time
      iaMM svMM iaMD 0 rho_list

/-!  ### Basic properties of the simulation loop  -/

/-- Complete case analysis of one successful loop iteration: either an
arrival event (line 32's condition holds, forcing `next_arrival` to be the
finite value `a`) or a departure event (the pending departure `d` is within
the horizon, so the `break` does not fire). -/
theorem simStep_cases {ia sv : ℕ → ℚ} {st : ℚ} {mp : ℕ} {s s' : SimState}
    (h : simStep ia sv st mp s = some s') :
    (s.t < st ∧ s.packet_count < mp) ∧
    ((∃ a : ℚ, s.next_arrival = (a : WithTop ℚ) ∧
        s.next_arrival ≤ s.departure_time ∧ a ≤ st ∧
        ((s.server_busy = true ∧ s' = doArrivalBusy ia a s) ∨
         (s.server_busy = false ∧ s' = doArrivalIdle ia sv a s))) ∨
     (¬(s.next_arrival ≤ s.departure_time ∧ s.next_arrival ≤ (st : WithTop ℚ)) ∧
      ∃ d : ℚ, s.departure_time = (d : WithTop ℚ) ∧ d ≤ st ∧
        ((s.queue = [] ∧ s' = doDepartIdle d s) ∨
         (s.queue ≠ [] ∧ s' = doDepartServe sv d s)))) := by
  unfold simStep at h
  by_cases h1 : s.t < st ∧ s.packet_count < mp
  · rw [if_pos h1] at h
    refine ⟨h1, ?_⟩
    by_cases h2 : s.next_arrival ≤ s.departure_time ∧ s.next_arrival ≤ (st : WithTop ℚ)
    · rw [if_pos h2] at h
      obtain ⟨a, ha⟩ :=
        WithTop.ne_top_iff_exists.mp (ne_top_of_le_ne_top (WithTop.coe_ne_top) h2.2)
      have hale : a ≤ st := by
        have := h2.2
        rw [← ha] at this
        exact_mod_cast this
      refine Or.inl ⟨a, ha.symm, h2.1, hale, ?_⟩
      by_cases hb : s.server_busy = true
      · rw [if_pos hb, ← ha, WithTop.untop'_coe] at h
        exact Or.inl ⟨hb, (Option.some_injective _ h).symm⟩
      · rw [if_neg hb, ← ha, WithTop.untop'_coe] at h
        exact Or.inr ⟨by simpa using hb, (Option.some_injective _ h).symm⟩
    · rw [if_neg h2] at h
      by_cases h3 : (st : WithTop ℚ) < s.departure_time
      · rw [if_pos h3] at h
        exact Option.noConfusion h
      · rw [if_neg h3] at h
        have hdle' : s.departure_time ≤ (st : WithTop ℚ) := not_lt.mp h3
        obtain ⟨d, hd⟩ :=
          WithTop.ne_top_iff_exists.mp (ne_top_of_le_ne_top (WithTop.coe_ne_top) hdle')
        have hdle : d ≤ st := by
          rw [← hd] at hdle'
          exact_mod_cast hdle'
        refine Or.inr ⟨h2, d, hd.symm, hdle, ?_⟩
        by_cases hq : s.queue = []
        · rw [if_pos hq, ← hd, WithTop.untop'_coe] at h
          exact Or.inl ⟨hq, (Option.some_injective _ h).symm⟩
        · rw [if_neg hq, ← hd, WithTop.untop'_coe] at h
          exact Or.inr ⟨hq, (Option.some_injective _ h).symm⟩
  · rw [if_neg h1] at h
    exact Option.noConfusion h

/-- The measure strictly decreases along every successful loop iteration. -/
theorem simMeasure_decreases {ia sv : ℕ → ℚ} {st : ℚ} {mp : ℕ} {s s' : SimState}
    (h : simStep ia sv st mp s = some s') :
    simMeasure mp s' < simMeasure mp s := by
  obtain ⟨⟨-, hpc⟩, hcase⟩ := simStep_cases h
  rcases hcase with ⟨a, ha, -, -, hbr⟩ | ⟨-, d, hd, -, hbr⟩
  · rcases hbr with ⟨-, rfl⟩ | ⟨-, rfl⟩
    · simp only [simMeasure, doArrivalBusy, List.length_append, List.length_cons,
        List.length_nil]
      omega
    · simp only [simMeasure, doArrivalIdle, WithTop.coe_ne_top, if_false]
      omega
  · rcases hbr with ⟨hq, rfl⟩ | ⟨hq, rfl⟩
    · simp only [simMeasure, doDepartIdle, hd, hq, WithTop.coe_ne_top, if_false,
        List.length_nil, if_true]
      omega
    · obtain ⟨p, rest, hpr⟩ := List.exists_cons_of_ne_nil hq
      simp only [simMeasure, doDepartServe, hd, hpr, WithTop.coe_ne_top, if_false,
        List.length_cons, List.tail_cons]
      omega

/-- Once the loop has exited, more fuel changes nothing. -/
theorem simLoopFuel_of_done {ia sv : ℕ → ℚ} {st : ℚ} {mp : ℕ} {s : SimState}
    (h : simStep ia sv st mp s = none) :
    ∀ n, simLoopFuel ia sv st mp n s = s := by
  intro n
  cases n with
  | zero => rfl
  | succ n => simp [simLoopFuel, h]

/-- The measure is positive. -/
theorem simMeasure_pos (mp : ℕ) (s : SimState) : 1 ≤ simMeasure mp s := by
  unfold simMeasure
  omega

/-- Any fuel at least the measure of the start state runs the loop to
completion: the resulting state is exited (its next `simStep` is `none`). -/
theorem simLoopFuel_done (ia sv : ℕ → ℚ) (st : ℚ) (mp : ℕ) :
    ∀ n s, simMeasure mp s ≤ n →
      simStep ia sv st mp (simLoopFuel ia sv st mp n s) = none := by
  intro n
  induction n using Nat.strong_induction_on with
  | _ n ih =>
    intro s hle
    cases hstep : simStep ia sv st mp s with
    | none => rw [simLoopFuel_of_done hstep]; exact hstep
    | some s' =>
      have hdec := simMeasure_decreases hstep
      have hpos := simMeasure_pos mp s
      obtain ⟨m, rfl⟩ : ∃ m, n = m + 1 := by
        rcases n with _ | m
        · omega
        · exact ⟨m, rfl⟩
      have hrw : simLoopFuel ia sv st mp (m + 1) s = simLoopFuel ia sv st mp m s' := by
        simp [simLoopFuel, hstep]
      rw [hrw]
      exact ih m (by omega) s' (by omega)

/-- Extra fuel beyond an exited run is irrelevant. -/
theorem simLoopFuel_add (ia sv : ℕ → ℚ) (st : ℚ) (mp : ℕ) :
    ∀ n s, simStep ia sv st mp (simLoopFuel ia sv st mp n s) = none →
      ∀ k, simLoopFuel ia sv st mp (n + k) s = simLoopFuel ia sv st mp n s := by
  intro n
  induction n with
  | zero =>
    intro s h k
    rw [Nat.zero_add]
    exact simLoopFuel_of_done h k
  | succ n ih =>
    intro s h k
    cases hstep : simStep ia sv st mp s with
    | none =>
      rw [simLoopFuel_of_done hstep, simLoopFuel_of_done hstep]
    | some s' =>
      have hrw : ∀ j, simLoopFuel ia sv st mp (j + 1) s = simLoopFuel ia sv st mp j s' := by
        intro j
        simp [simLoopFuel, hstep]
      rw [hrw] at h
      rw [show n + 1 + k = n + k + 1 by omega, hrw, hrw]
      exact ih s' h k

/-- Transport of a step-preserved predicate along the fuelled loop. -/
theorem simLoopFuel_inv {ia sv : ℕ → ℚ} {st : ℚ} {mp : ℕ} {P : SimState → Prop}
    (hP : ∀ s s', simStep ia sv st mp s = some s' → P s → P s') :
    ∀ n s, P s → P (simLoopFuel ia sv st mp n s) := by
  intro n
  induction n with
  | zero => intro s hs; exact hs
  | succ n ih =>
    intro s hs
    cases hstep : simStep ia sv st mp s with
    | none => rw [simLoopFuel_of_done hstep]; exact hs
    | some s' =>
      have hrw : simLoopFuel ia sv st mp (n + 1) s = simLoopFuel ia sv st mp n s' := by
        simp [simLoopFuel, hstep]
      rw [hrw]
      exact ih s' (hP s s' hstep hs)

/-!  ### Invariant: recorded timestamps are always set, departures within horizon -/

/-- Hypothesis-free invariant of the simulation loop: every completed packet
has both service timestamps set and departed at or before the horizon, and
the packet occupying the server has its timestamps set with the departure
clock equal to its recorded departure time. -/
structure Inv0 (st : ℚ) (s : SimState) : Prop where
  completed : ∀ p ∈ s.packets_completed,
    ∃ ss d, p.start_service = some ss ∧ p.departure_time = some d ∧ d ≤ st
  serving : ∀ p, s.current_serving = some p →
    ∃ ss d, p.start_service = some ss ∧ p.departure_time = some d ∧
      s.departure_time = (d : WithTop ℚ)

theorem inv0_init (st arrival_rate : ℚ) (ia : ℕ → ℚ) :
    Inv0 st (initState arrival_rate ia) := by
  constructor <;> simp [initState]

theorem inv0_step {ia sv : ℕ → ℚ} {st : ℚ} {mp : ℕ} {s s' : SimState}
    (hstep : simStep ia sv st mp s = some s') (hinv : Inv0 st s) : Inv0 st s' := by
  obtain ⟨-, hcase⟩ := simStep_cases hstep
  rcases hcase with ⟨a, ha, -, hale, hbr⟩ | ⟨-, d, hd, hdle, hbr⟩
  · rcases hbr with ⟨-, rfl⟩ | ⟨-, rfl⟩
    · exact ⟨by simpa [doArrivalBusy] using hinv.completed,
             by simpa [doArrivalBusy] using hinv.serving⟩
    · refine ⟨by simpa [doArrivalIdle] using hinv.completed, ?_⟩
      intro p hp
      simp only [doArrivalIdle, Option.some_inj] at hp
      subst hp
      exact ⟨a, a + sv s.sv_idx, rfl, rfl, rfl⟩
  · have hcomp : ∀ p ∈ s.packets_completed ++ s.current_serving.toList,
        ∃ ss dd, p.start_service = some ss ∧ p.departure_time = some dd ∧ dd ≤ st := by
      intro p hp
      rcases List.mem_append.mp hp with hp | hp
      · exact hinv.completed p hp
      · rw [Option.mem_toList, Option.mem_def] at hp
        obtain ⟨ss, dd, h1, h2, h3⟩ := hinv.serving p hp
        refine ⟨ss, dd, h1, h2, ?_⟩
        rw [hd] at h3
        have hdd : dd = d := by exact_mod_cast h3.symm
        rw [hdd]
        exact hdle
    rcases hbr with ⟨hq, rfl⟩ | ⟨hq, rfl⟩
    · refine ⟨by simpa [doDepartIdle] using hcomp, ?_⟩
      intro p hp
      simp [doDepartIdle] at hp
    · refine ⟨by simpa [doDepartServe] using hcomp, ?_⟩
      intro p hp
      simp only [doDepartServe, Option.some_inj] at hp
      subst hp
      exact ⟨d, d + sv s.sv_idx, rfl, rfl, rfl⟩

theorem inv0_final (arrival_rate : ℚ) (ia sv : ℕ → ℚ) (st : ℚ) (mp : ℕ) :
    Inv0 st (finalState arrival_rate ia sv st mp) :=
  simLoopFuel_inv (fun _ _ h hi => inv0_step h hi) _ _ (inv0_init st arrival_rate ia)

/-!  ### The result-collection loop -/

/-- When every packet in the list has its departure time set (which the
invariant guarantees for completed packets), the collection loop succeeds and
returns exactly the per-packet total delays and (truthiness-guarded) queueing
delays, in list order. -/
theorem collectResults_eq (l : List Packet)
    (h : ∀ p ∈ l, p.departure_time ≠ none) :
    collectResults l =
      some (l.map (fun p => p.departure_time.getD 0 - p.arrival_time),
            l.map (fun p =>
              match p.start_service with
              | none => 0
              | some ss => if ss = 0 then 0 else ss - p.arrival_time)) := by
  induction l with
  | nil => rfl
  | cons p ps ih =>
    obtain ⟨d, hd⟩ := Option.ne_none_iff_exists'.mp (h p (List.mem_cons_self p ps))
    rw [collectResults, hd, ih (fun q hq => h q (List.mem_cons_of_mem _ hq))]
    simp [hd]

/-!  ### Concrete sample streams used by witnesses and counterexamples -/

/-- Constant sample stream. -/
def constStream (q : ℚ) : ℕ → ℚ := fun _ => q

/-- Inter-arrival stream: one arrival at time 0, then a long gap. -/
def cIA1 : ℕ → ℚ := fun n => if n = 0 then 0 else 5

/-!  ### Claims C10, C7, C8, C1 -/

/-- Claim C10: in every run of `simulate_queue`, every packet appended to
`packets_completed` has both `start_service` and `departure_time` set, so the
result-collection loop never subtracts from an unset field and the function
returns (is `some`) rather than raising. -/
theorem completed_packets_fields_set (arrival_rate : ℚ) (ia sv : ℕ → ℚ)
    (st : ℚ) (mp : ℕ) :
    ((finalState arrival_rate ia sv st mp).packets_completed.all
      (fun p => p.start_service.isSome && p.departure_time.isSome)) = true ∧
    (simulate_queue arrival_rate ia sv st mp).isSome = true := by
  have hinv := inv0_final arrival_rate ia sv st mp
  have hdep : ∀ p ∈ (finalState arrival_rate ia sv st mp).packets_completed,
      p.departure_time ≠ none := by
    intro p hp
    obtain ⟨ss, d, -, h2, -⟩ := hinv.completed p hp
    simp [h2]
  constructor
  · rw [List.all_eq_true]
    intro p hp
    obtain ⟨ss, d, h1, h2, -⟩ := hinv.completed p hp
    simp [h1, h2]
  · rw [simulate_queue, collectResults_eq _ hdep]
    rfl

/-- Claim C7: `simulate_queue` terminates on every input — whatever the
arrival rate, sample streams, horizon and packet cap, the loop reaches an
exited state (`simStep` returns `none`) after finitely many iterations, and
any extra fuel leaves the result unchanged.  The loop stops because either
`t < sim_time` or `packet_count < max_packets` fails, or the `break` fires. -/
theorem simulate_queue_terminates (arrival_rate : ℚ) (ia sv : ℕ → ℚ)
    (st : ℚ) (mp : ℕ) :
    ∃ n, simStep ia sv st mp (simLoopFuel ia sv st mp n (initState arrival_rate ia)) = none ∧
      ∀ k, simLoopFuel ia sv st mp (n + k) (initState arrival_rate ia) =
        simLoopFuel ia sv st mp n (initState arrival_rate ia) :=
  ⟨simMeasure mp (initState arrival_rate ia),
    simLoopFuel_done ia sv st mp _ _ le_rfl,
    simLoopFuel_add ia sv st mp _ _ (simLoopFuel_done ia sv st mp _ _ le_rfl)⟩

/-- Claim C8: with `arrival_rate = 0` no arrival is ever scheduled — the
initial `next_arrival` is `inf` — and `simulate_queue` returns two empty
sequences, for every positive horizon and any sampler. -/
theorem simulate_queue_zero_arrival_rate (ia sv : ℕ → ℚ) (st : ℚ) (mp : ℕ)
    (_hst : 0 < st) :
    (initState 0 ia).next_arrival = ⊤ ∧
    simulate_queue 0 ia sv st mp = some ([], []) := by
  have hna : (initState 0 ia).next_arrival = ⊤ := by simp [initState]
  have hdone : simStep ia sv st mp (initState 0 ia) = none := by
    simp [simStep, initState, top_le_iff, WithTop.coe_lt_top]
  refine ⟨hna, ?_⟩
  rw [simulate_queue, finalState, simLoopFuel_of_done hdone]
  rfl

/-- Witness for C8 at a concrete positive horizon. -/
theorem simulate_queue_zero_arrival_rate_witness :
    (initState 0 (constStream 1)).next_arrival = ⊤ ∧
    simulate_queue 0 (constStream 1) (constStream 1) 1 5 = some ([], []) :=
  simulate_queue_zero_arrival_rate (constStream 1) (constStream 1) 1 5 one_pos

/-- Counterexample to Claim C1 as stated: a packet whose departure time
falls exactly on the horizon (`departure_time == sim_time`) *is* counted as
completed (`pooja.py` line 50 breaks only on `>`), so the output packets do
not all depart strictly before `sim_time`.  Here `sim_time = 1` and the only
completed packet departs exactly at 1. -/
theorem departure_at_horizon_counted :
    (finalState 1 cIA1 (constStream 1) 1 10).packets_completed = [⟨0, some 0, some 1⟩] ∧
    simulate_queue 1 cIA1 (constStream 1) 1 10 = some ([1], [0]) ∧
    ¬(∀ p ∈ (finalState 1 cIA1 (constStream 1) 1 10).packets_completed,
        ∀ d, p.departure_time = some d → d < 1) := by
  have hfin : (finalState 1 cIA1 (constStream 1) 1 10).packets_completed =
      [⟨0, some 0, some 1⟩] := by with_unfolding_all rfl
  refine ⟨hfin, by with_unfolding_all rfl, ?_⟩
  intro hall
  have h1 := hall ⟨0, some 0, some 1⟩ (by rw [hfin]; exact List.mem_singleton_self _) 1 rfl
  exact absurd h1 (by norm_num)

/-- Claim C1 (amended): completions are counted at or before the horizon —
every run returns two sequences whose common length is the number of
completed packets, and every completed packet departed at a time `≤ sim_time`
(a departure event strictly beyond the horizon is discarded by the `break`).
The bound is not strict: a departure exactly at the horizon is counted. -/
theorem simulate_queue_departures_le_horizon (arrival_rate : ℚ) (ia sv : ℕ → ℚ)
    (st : ℚ) (mp : ℕ) :
    ∃ ds qs, simulate_queue arrival_rate ia sv st mp = some (ds, qs) ∧
      ds.length = (finalState arrival_rate ia sv st mp).packets_completed.length ∧
      qs.length = (finalState arrival_rate ia sv st mp).packets_completed.length ∧
      ∀ p ∈ (finalState arrival_rate ia sv st mp).packets_completed,
        ∀ d, p.departure_time = some d → d ≤ st := by
  have hinv := inv0_final arrival_rate ia sv st mp
  have hdep : ∀ p ∈ (finalState arrival_rate ia sv st mp).packets_completed,
      p.departure_time ≠ none := by
    intro p hp
    obtain ⟨ss, d, -, h2, -⟩ := hinv.completed p hp
    simp [h2]
  refine ⟨_, _, by rw [simulate_queue, collectResults_eq _ hdep], by simp, by simp, ?_⟩
  intro p hp d hd
  obtain ⟨ss, d', -, h2, h3⟩ := hinv.completed p hp
  rw [hd] at h2
  rw [Option.some_inj.mp h2]
  exact h3

/-- Witness for the amended C1 at a concrete input (the horizon-boundary run). -/
theorem simulate_queue_departures_le_horizon_witness :
    ∃ ds qs, simulate_queue 1 cIA1 (constStream 1) 1 10 = some (ds, qs) ∧
      ds.length = (finalState 1 cIA1 (constStream 1) 1 10).packets_completed.length ∧
      qs.length = (finalState 1 cIA1 (constStream 1) 1 10).packets_completed.length ∧
      ∀ p ∈ (finalState 1 cIA1 (constStream 1) 1 10).packets_completed,
        ∀ d, p.departure_time = some d → d ≤ 1 :=
  simulate_queue_departures_le_horizon 1 cIA1 (constStream 1) 1 10

/-!  ### Invariant for timestamp ordering (Claim C4) -/

/-- Invariant needing only non-negative service samples: all recorded
timestamp pairs are ordered, every waiting packet arrived no later than the
pending departure, and an idle server means an empty waiting line. -/
structure Inv4 (s : SimState) : Prop where
  completed : ∀ p ∈ s.packets_completed, ∃ ss d, p.start_service = some ss ∧
    p.departure_time = some d ∧ p.arrival_time ≤ ss ∧ ss ≤ d
  serving : ∀ p, s.current_serving = some p → ∃ ss d, p.start_service = some ss ∧
    p.departure_time = some d ∧ p.arrival_time ≤ ss ∧ ss ≤ d
  queue_dt : ∀ p ∈ s.queue, (p.arrival_time : WithTop ℚ) ≤ s.departure_time
  idle_queue : s.server_busy = false → s.queue = []

theorem inv4_init (arrival_rate : ℚ) (ia : ℕ → ℚ) : Inv4 (initState arrival_rate ia) := by
  constructor <;> simp [initState]

theorem inv4_step {ia sv : ℕ → ℚ} {st : ℚ} {mp : ℕ} {s s' : SimState}
    (hsv : ∀ n, 0 ≤ sv n)
    (hstep : simStep ia sv st mp s = some s') (h : Inv4 s) : Inv4 s' := by
  obtain ⟨-, hcase⟩ := simStep_cases hstep
  rcases hcase with ⟨a, ha, hadt, -, hbr⟩ | ⟨-, d, hd, -, hbr⟩
  · rcases hbr with ⟨hb, rfl⟩ | ⟨hb, rfl⟩
    · -- arrival, busy server: the new packet joins the queue
      refine ⟨by simpa [doArrivalBusy] using h.completed,
              by simpa [doArrivalBusy] using h.serving, ?_, ?_⟩
      · intro p hp
        simp only [doArrivalBusy, List.mem_append, List.mem_singleton] at hp ⊢
        rcases hp with hp | rfl
        · exact h.queue_dt p hp
        · rw [← ha]
          exact hadt
      · intro habs
        simp only [doArrivalBusy] at habs
        rw [hb] at habs
        exact absurd habs (by simp)
    · -- arrival, idle server: immediate service
      refine ⟨by simpa [doArrivalIdle] using h.completed, ?_, ?_, ?_⟩
      · intro p hp
        simp only [doArrivalIdle, Option.some_inj] at hp
        subst hp
        exact ⟨a, a + sv s.sv_idx, rfl, rfl, le_refl a, le_add_of_nonneg_right (hsv _)⟩
      · intro p hp
        simp only [doArrivalIdle] at hp
        rw [h.idle_queue hb] at hp
        exact absurd hp (List.not_mem_nil p)
      · intro habs
        simp only [doArrivalIdle] at habs
        exact absurd habs (by simp)
  · have hcomp : ∀ p ∈ s.packets_completed ++ s.current_serving.toList,
        ∃ ss dd, p.start_service = some ss ∧ p.departure_time = some dd ∧
          p.arrival_time ≤ ss ∧ ss ≤ dd := by
      intro p hp
      rcases List.mem_append.mp hp with hp | hp
      · exact h.completed p hp
      · rw [Option.mem_toList, Option.mem_def] at hp
        exact h.serving p hp
    rcases hbr with ⟨hq, rfl⟩ | ⟨hq, rfl⟩
    · -- departure, empty queue: server becomes idle
      refine ⟨by simpa [doDepartIdle] using hcomp, ?_, ?_, ?_⟩
      · intro p hp
        simp [doDepartIdle] at hp
      · intro p hp
        simp only [doDepartIdle] at hp
        rw [hq] at hp
        exact absurd hp (List.not_mem_nil p)
      · intro _
        simp only [doDepartIdle]
        exact hq
    · -- departure, non-empty queue: pop the head and serve it
      obtain ⟨p0, rest, hpr⟩ := List.exists_cons_of_ne_nil hq
      refine ⟨by simpa [doDepartServe] using hcomp, ?_, ?_, ?_⟩
      · intro p hp
        simp only [doDepartServe, Option.some_inj] at hp
        subst hp
        refine ⟨d, d + sv s.sv_idx, rfl, rfl, ?_, le_add_of_nonneg_right (hsv _)⟩
        have := h.queue_dt s.queue.headI (by rw [hpr]; simp)
        rw [hd] at this
        simpa using this
      · intro p hp
        simp only [doDepartServe] at hp ⊢
        have hmem : p ∈ s.queue := by
          rw [hpr] at hp ⊢
          exact List.mem_cons_of_mem p0 (by simpa using hp)
        have h1 := h.queue_dt p hmem
        rw [hd] at h1
        have h1' : p.arrival_time ≤ d := by exact_mod_cast h1
        exact_mod_cast le_trans h1' (le_add_of_nonneg_right (hsv _))
      · intro habs
        simp only [doDepartServe] at habs
        exact absurd habs (by simp)

theorem inv4_final (arrival_rate : ℚ) (ia sv : ℕ → ℚ) (st : ℚ) (mp : ℕ)
    (hsv : ∀ n, 0 ≤ sv n) : Inv4 (finalState arrival_rate ia sv st mp) :=
  simLoopFuel_inv (fun _ _ hst hi => inv4_step hsv hst hi) _ _ (inv4_init arrival_rate ia)

/-- Claim C4: when the service-time sampler only returns non-negative values,
every completed packet satisfies `arrival_time ≤ start_service ≤ departure_time`. -/
theorem simulate_queue_timestamps_ordered (arrival_rate : ℚ) (ia sv : ℕ → ℚ)
    (st : ℚ) (mp : ℕ) (hsv : ∀ n, 0 ≤ sv n) :
    ∀ p ∈ (finalState arrival_rate ia sv st mp).packets_completed,
      ∀ ss d, p.start_service = some ss → p.departure_time = some d →
        p.arrival_time ≤ ss ∧ ss ≤ d := by
  intro p hp ss d hss hd
  obtain ⟨ss', d', h1, h2, h3, h4⟩ := (inv4_final arrival_rate ia sv st mp hsv).completed p hp
  rw [hss] at h1
  rw [hd] at h2
  rw [Option.some_inj.mp h1, Option.some_inj.mp h2]
  exact ⟨h3, h4⟩

/-- Witness for C4 on a run with actual queueing (arrivals every 1/4 s,
unit service times, horizon 3). -/
theorem simulate_queue_timestamps_ordered_witness :
    (∀ n, 0 ≤ constStream 1 n) ∧
    ∀ p ∈ (finalState 1 (constStream (1/4)) (constStream 1) 3 10).packets_completed,
      ∀ ss d, p.start_service = some ss → p.departure_time = some d →
        p.arrival_time ≤ ss ∧ ss ≤ d :=
  ⟨fun _ => zero_le_one,
   simulate_queue_timestamps_ordered 1 (constStream (1/4)) (constStream 1) 3 10
     (fun _ => zero_le_one)⟩

/-!  ### Master invariant: FIFO ordering (Claims C3, C5) -/

/-- Full invariant of the simulation loop, valid when both sample streams are
non-negative (as `random.expovariate` and the documented samplers are): the
clock is monotone and non-negative, completed packets are sorted both by
arrival and by departure, the waiting line is sorted by arrival, and the
packet in service separates the completed packets from the waiting line. -/
structure InvM (st : ℚ) (s : SimState) : Prop where
  busy_serving : s.server_busy = s.current_serving.isSome
  idle_queue : s.server_busy = false → s.queue = []
  t_nonneg : 0 ≤ s.t
  t_le_dt : (s.t : WithTop ℚ) ≤ s.departure_time
  t_le_na : (s.t : WithTop ℚ) ≤ s.next_arrival ∨ ¬ s.next_arrival ≤ (st : WithTop ℚ)
  completed_ok : ∀ p ∈ s.packets_completed, ∃ ss d, p.start_service = some ss ∧
    p.departure_time = some d ∧ 0 ≤ p.arrival_time ∧ p.arrival_time ≤ ss ∧
    ss ≤ d ∧ d ≤ s.t
  serving_ok : ∀ p, s.current_serving = some p → ∃ ss d, p.start_service = some ss ∧
    p.departure_time = some d ∧ 0 ≤ p.arrival_time ∧ p.arrival_time ≤ ss ∧
    ss ≤ s.t ∧ ss ≤ d ∧ s.departure_time = (d : WithTop ℚ)
  queue_ok : ∀ p ∈ s.queue, p.start_service = none ∧ p.departure_time = none ∧
    0 ≤ p.arrival_time ∧ p.arrival_time ≤ s.t
  completed_arr_sorted : s.packets_completed.Pairwise
    (fun p q => p.arrival_time ≤ q.arrival_time)
  completed_dep_sorted : s.packets_completed.Pairwise
    (fun p q => p.departure_time.getD 0 ≤ q.departure_time.getD 0)
  completed_le_serving : ∀ p ∈ s.packets_completed, ∀ q, s.current_serving = some q →
    p.arrival_time ≤ q.arrival_time
  queue_sorted : s.queue.Pairwise (fun p q => p.arrival_time ≤ q.arrival_time)
  serving_le_queue : ∀ q, s.current_serving = some q → ∀ p ∈ s.queue,
    q.arrival_time ≤ p.arrival_time

theorem invM_init (st arrival_rate : ℚ) (ia : ℕ → ℚ) (hia : ∀ n, 0 ≤ ia n) :
    InvM st (initState arrival_rate ia) := by
  constructor <;> simp [initState]
  by_cases har : 0 < arrival_rate
  · rw [if_pos har]
    left
    exact_mod_cast hia 0
  · rw [if_neg har]
    left
    exact le_top

theorem invM_step {ia sv : ℕ → ℚ} {st : ℚ} {mp : ℕ} {s s' : SimState}
    (hia : ∀ n, 0 ≤ ia n) (hsv : ∀ n, 0 ≤ sv n)
    (hstep : simStep ia sv st mp s = some s') (h : InvM st s) : InvM st s' := by
  obtain ⟨-, hcase⟩ := simStep_cases hstep
  rcases hcase with ⟨a, ha, hadt, hale, hbr⟩ | ⟨hnc, d, hd, hdle, hbr⟩
  · -- arrival event at time a
    have hta : s.t ≤ a := by
      rcases h.t_le_na with h1 | h1
      · rw [ha] at h1
        exact_mod_cast h1
      · exfalso
        apply h1
        rw [ha]
        exact_mod_cast hale
    rcases hbr with ⟨hb, rfl⟩ | ⟨hb, rfl⟩
    · -- busy server: the new packet is enqueued
      refine ⟨?_, ?_, ?_, ?_, ?_, ?_, ?_, ?_, ?_, ?_, ?_, ?_, ?_⟩
      · simpa [doArrivalBusy] using h.busy_serving
      · intro habs
        simp only [doArrivalBusy] at habs
        rw [hb] at habs
        exact absurd habs (by simp)
      · exact le_trans h.t_nonneg hta
      · show ((a : ℚ) : WithTop ℚ) ≤ s.departure_time
        rw [← ha]
        exact hadt
      · left
        show ((a : ℚ) : WithTop ℚ) ≤ ((a + ia s.ia_idx : ℚ) : WithTop ℚ)
        exact_mod_cast le_add_of_nonneg_right (hia _)
      · intro p hp
        obtain ⟨ss, dd, h1, h2, h3, h4, h5, h6⟩ :=
          h.completed_ok p (by simpa [doArrivalBusy] using hp)
        exact ⟨ss, dd, h1, h2, h3, h4, h5, le_trans h6 hta⟩
      · intro p hp
        obtain ⟨ss, dd, h1, h2, h3, h4, h5, h6, h7⟩ :=
          h.serving_ok p (by simpa [doArrivalBusy] using hp)
        exact ⟨ss, dd, h1, h2, h3, h4, le_trans h5 hta, h6, h7⟩
      · intro p hp
        simp only [doArrivalBusy, List.mem_append, List.mem_singleton] at hp
        rcases hp with hp | rfl
        · obtain ⟨h1, h2, h3, h4⟩ := h.queue_ok p hp
          exact ⟨h1, h2, h3, le_trans h4 hta⟩
        · exact ⟨rfl, rfl, le_trans h.t_nonneg hta, le_refl a⟩
      · simpa [doArrivalBusy] using h.completed_arr_sorted
      · simpa [doArrivalBusy] using h.completed_dep_sorted
      · intro p hp q hq
        exact h.completed_le_serving p (by simpa [doArrivalBusy] using hp) q
          (by simpa [doArrivalBusy] using hq)
      · show (s.queue ++ [(⟨a, none, none⟩ : Packet)]).Pairwise
          (fun p q => p.arrival_time ≤ q.arrival_time)
        rw [List.pairwise_append]
        refine ⟨h.queue_sorted, List.pairwise_singleton _ _, ?_⟩
        intro p hp q hq
        rw [List.mem_singleton] at hq
        subst hq
        exact le_trans (h.queue_ok p hp).2.2.2 hta
      · intro q hq p hp
        simp only [doArrivalBusy, List.mem_append, List.mem_singleton] at hp hq
        rcases hp with hp | rfl
        · exact h.serving_le_queue q hq p hp
        · obtain ⟨ss, dd, -, -, -, h4, h5, -, -⟩ := h.serving_ok q hq
          exact le_trans h4 (le_trans h5 hta)
    · -- idle server: immediate service
      have hqnil : s.queue = [] := h.idle_queue hb
      refine ⟨?_, ?_, ?_, ?_, ?_, ?_, ?_, ?_, ?_, ?_, ?_, ?_, ?_⟩
      · simp [doArrivalIdle]
      · intro habs
        simp only [doArrivalIdle] at habs
        exact absurd habs (by simp)
      · exact le_trans h.t_nonneg hta
      · show ((a : ℚ) : WithTop ℚ) ≤ ((a + sv s.sv_idx : ℚ) : WithTop ℚ)
        exact_mod_cast le_add_of_nonneg_right (hsv _)
      · left
        show ((a : ℚ) : WithTop ℚ) ≤ ((a + ia s.ia_idx : ℚ) : WithTop ℚ)
        exact_mod_cast le_add_of_nonneg_right (hia _)
      · intro p hp
        obtain ⟨ss, dd, h1, h2, h3, h4, h5, h6⟩ :=
          h.completed_ok p (by simpa [doArrivalIdle] using hp)
        exact ⟨ss, dd, h1, h2, h3, h4, h5, le_trans h6 hta⟩
      · intro p hp
        simp only [doArrivalIdle, Option.some_inj] at hp
        subst hp
        exact ⟨a, a + sv s.sv_idx, rfl, rfl, le_trans h.t_nonneg hta, le_refl a,
          le_refl a, le_add_of_nonneg_right (hsv _), rfl⟩
      · intro p hp
        simp only [doArrivalIdle] at hp
        rw [hqnil] at hp
        exact absurd hp (List.not_mem_nil p)
      · simpa [doArrivalIdle] using h.completed_arr_sorted
      · simpa [doArrivalIdle] using h.completed_dep_sorted
      · intro p hp q hq
        simp only [doArrivalIdle, Option.some_inj] at hq
        subst hq
        obtain ⟨ss, dd, -, -, -, h4, h5, h6⟩ :=
          h.completed_ok p (by simpa [doArrivalIdle] using hp)
        exact le_trans h4 (le_trans h5 (le_trans h6 hta))
      · simp only [doArrivalIdle]
        rw [hqnil]
        exact List.Pairwise.nil
      · intro q hq p hp
        simp only [doArrivalIdle] at hp
        rw [hqnil] at hp
        exact absurd hp (List.not_mem_nil p)
  · -- departure event at time d
    have htd : s.t ≤ d := by
      have h1 := h.t_le_dt
      rw [hd] at h1
      exact_mod_cast h1
    have hna' : ((d : ℚ) : WithTop ℚ) ≤ s.next_arrival ∨
        ¬ s.next_arrival ≤ (st : WithTop ℚ) := by
      by_cases hnas : s.next_arrival ≤ (st : WithTop ℚ)
      · left
        have hnd : ¬ s.next_arrival ≤ s.departure_time := fun hcon => hnc ⟨hcon, hnas⟩
        rw [hd] at hnd
        exact le_of_lt (not_le.mp hnd)
      · right
        exact hnas
    have hcompleted' : ∀ p ∈ s.packets_completed ++ s.current_serving.toList,
        ∃ ss dd, p.start_service = some ss ∧ p.departure_time = some dd ∧
          0 ≤ p.arrival_time ∧ p.arrival_time ≤ ss ∧ ss ≤ dd ∧ dd ≤ d := by
      intro p hp
      rcases List.mem_append.mp hp with hp | hp
      · obtain ⟨ss, dd, h1, h2, h3, h4, h5, h6⟩ := h.completed_ok p hp
        exact ⟨ss, dd, h1, h2, h3, h4, h5, le_trans h6 htd⟩
      · rw [Option.mem_toList, Option.mem_def] at hp
        obtain ⟨ss, dd, h1, h2, h3, h4, h5, h6, h7⟩ := h.serving_ok p hp
        have hdd : dd = d := by
          have h8 : (dd : WithTop ℚ) = (d : WithTop ℚ) := by rw [← h7, hd]
          exact_mod_cast h8
        exact ⟨ss, dd, h1, h2, h3, h4, h6, le_of_eq hdd⟩
    have harr_sorted' : (s.packets_completed ++ s.current_serving.toList).Pairwise
        (fun p q => p.arrival_time ≤ q.arrival_time) := by
      rw [List.pairwise_append]
      refine ⟨h.completed_arr_sorted, ?_, ?_⟩
      · rcases s.current_serving with _ | q <;> simp [Option.toList]
      · intro p hp q hq
        rw [Option.mem_toList, Option.mem_def] at hq
        exact h.completed_le_serving p hp q hq
    have hdep_sorted' : (s.packets_completed ++ s.current_serving.toList).Pairwise
        (fun p q => p.departure_time.getD 0 ≤ q.departure_time.getD 0) := by
      rw [List.pairwise_append]
      refine ⟨h.completed_dep_sorted, ?_, ?_⟩
      · rcases s.current_serving with _ | q <;> simp [Option.toList]
      · intro p hp q hq
        rw [Option.mem_toList, Option.mem_def] at hq
        obtain ⟨ssp, dp, -, h2p, -, -, -, h6p⟩ := h.completed_ok p hp
        obtain ⟨ssq, dq, -, h2q, -, -, -, -, h7q⟩ := h.serving_ok q hq
        rw [h2p, h2q]
        simp only [Option.getD_some]
        have h8 : (dq : WithTop ℚ) = (d : WithTop ℚ) := by rw [← h7q, hd]
        have hdq : dq = d := by exact_mod_cast h8
        rw [hdq]
        exact le_trans h6p htd
    rcases hbr with ⟨hq, rfl⟩ | ⟨hq, rfl⟩
    · -- empty waiting line: the server goes idle
      refine ⟨?_, ?_, ?_, ?_, ?_, ?_, ?_, ?_, ?_, ?_, ?_, ?_, ?_⟩
      · simp [doDepartIdle]
      · intro _
        simp only [doDepartIdle]
        exact hq
      · exact le_trans h.t_nonneg htd
      · exact le_top
      · exact hna'
      · intro p hp
        exact hcompleted' p hp
      · intro p hp
        simp [doDepartIdle] at hp
      · intro p hp
        simp only [doDepartIdle] at hp
        rw [hq] at hp
        exact absurd hp (List.not_mem_nil p)
      · exact harr_sorted'
      · exact hdep_sorted'
      · intro p hp q hq2
        simp [doDepartIdle] at hq2
      · simp only [doDepartIdle]
        rw [hq]
        exact List.Pairwise.nil
      · intro q hq2 p hp
        simp [doDepartIdle] at hq2
    · -- non-empty waiting line: pop the head and serve it
      obtain ⟨p0, rest, hpr⟩ := List.exists_cons_of_ne_nil hq
      obtain ⟨q0, hq0⟩ : ∃ q0, s.current_serving = some q0 := by
        rcases hcs : s.current_serving with _ | q0
        · exfalso
          have hb : s.server_busy = false := by
            rw [h.busy_serving, hcs]
            rfl
          rw [h.idle_queue hb] at hpr
          exact List.noConfusion hpr
        · exact ⟨q0, rfl⟩
      have hp0 : s.queue.headI = p0 := by rw [hpr]; rfl
      have htl : s.queue.tail = rest := by rw [hpr]; rfl
      have hp0mem : p0 ∈ s.queue := by
        rw [hpr]
        exact List.mem_cons_self _ _
      obtain ⟨hp0ss, hp0dep, hp0arr0, hp0arrt⟩ := h.queue_ok p0 hp0mem
      refine ⟨?_, ?_, ?_, ?_, ?_, ?_, ?_, ?_, ?_, ?_, ?_, ?_, ?_⟩
      · simp [doDepartServe]
      · intro habs
        simp only [doDepartServe] at habs
        exact absurd habs (by simp)
      · exact le_trans h.t_nonneg htd
      · show ((d : ℚ) : WithTop ℚ) ≤ ((d + sv s.sv_idx : ℚ) : WithTop ℚ)
        exact_mod_cast le_add_of_nonneg_right (hsv _)
      · exact hna'
      · intro p hp
        exact hcompleted' p hp
      · intro p hp
        simp only [doDepartServe, Option.some_inj] at hp
        subst hp
        refine ⟨d, d + sv s.sv_idx, rfl, rfl, ?_, ?_, le_refl d,
          le_add_of_nonneg_right (hsv _), rfl⟩
        · show 0 ≤ s.queue.headI.arrival_time
          rw [hp0]
          exact hp0arr0
        · show s.queue.headI.arrival_time ≤ d
          rw [hp0]
          exact le_trans hp0arrt htd
      · intro p hp
        simp only [doDepartServe] at hp
        rw [htl] at hp
        have hpmem : p ∈ s.queue := by
          rw [hpr]
          exact List.mem_cons_of_mem _ hp
        obtain ⟨h1, h2, h3, h4⟩ := h.queue_ok p hpmem
        exact ⟨h1, h2, h3, le_trans h4 htd⟩
      · exact harr_sorted'
      · exact hdep_sorted'
      · intro p hp q hq2
        simp only [doDepartServe, Option.some_inj] at hq2
        subst hq2
        show p.arrival_time ≤ s.queue.headI.arrival_time
        rw [hp0]
        have hp' : p ∈ s.packets_completed ++ s.current_serving.toList := hp
        rcases List.mem_append.mp hp' with hpc | hps
        · exact le_trans (h.completed_le_serving p hpc q0 hq0)
            (h.serving_le_queue q0 hq0 p0 hp0mem)
        · rw [Option.mem_toList, Option.mem_def] at hps
          have hpq0 : p = q0 := by
            rw [hq0] at hps
            exact Option.some_inj.mp hps.symm
          rw [hpq0]
          exact h.serving_le_queue q0 hq0 p0 hp0mem
      · simp only [doDepartServe]
        rw [htl]
        exact (List.pairwise_cons.mp (hpr ▸ h.queue_sorted)).2
      · intro q hq2 p hp
        simp only [doDepartServe, Option.some_inj] at hq2
        subst hq2
        simp only [doDepartServe] at hp
        rw [htl] at hp
        show s.queue.headI.arrival_time ≤ p.arrival_time
        rw [hp0]
        exact (List.pairwise_cons.mp (hpr ▸ h.queue_sorted)).1 p hp

theorem invM_final (arrival_rate : ℚ) (ia sv : ℕ → ℚ) (st : ℚ) (mp : ℕ)
    (hia : ∀ n, 0 ≤ ia n) (hsv : ∀ n, 0 ≤ sv n) :
    InvM st (finalState arrival_rate ia sv st mp) :=
  simLoopFuel_inv (fun _ _ hst hi => invM_step hia hsv hst hi) _ _
    (invM_init st arrival_rate ia hia)

/-- Claim C3 (FIFO, no overtaking): in every run with non-negative sample
streams, if completed packet `A` arrived strictly before completed packet `B`
then `A` departed no later than `B`.  (Both orderings are read off the
completed-packets list, which the loop fills in completion order.) -/
theorem simulate_queue_fifo_no_overtaking (arrival_rate : ℚ) (ia sv : ℕ → ℚ)
    (st : ℚ) (mp : ℕ) (hia : ∀ n, 0 ≤ ia n) (hsv : ∀ n, 0 ≤ sv n) :
    ∀ i j (hi : i < (finalState arrival_rate ia sv st mp).packets_completed.length)
        (hj : j < (finalState arrival_rate ia sv st mp).packets_completed.length),
      ((finalState arrival_rate ia sv st mp).packets_completed.get ⟨i, hi⟩).arrival_time <
        ((finalState arrival_rate ia sv st mp).packets_completed.get ⟨j, hj⟩).arrival_time →
      ∀ di dj,
        ((finalState arrival_rate ia sv st mp).packets_completed.get ⟨i, hi⟩).departure_time
          = some di →
        ((finalState arrival_rate ia sv st mp).packets_completed.get ⟨j, hj⟩).departure_time
          = some dj →
        di ≤ dj := by
  intro i j hi hj harr di dj hdi hdj
  have hinv := invM_final arrival_rate ia sv st mp hia hsv
  rcases lt_trichotomy i j with hij | rfl | hij
  · have hdep := List.pairwise_iff_get.mp hinv.completed_dep_sorted ⟨i, hi⟩ ⟨j, hj⟩ hij
    rw [hdi, hdj] at hdep
    simpa using hdep
  · exact absurd harr (lt_irrefl _)
  · have harr2 := List.pairwise_iff_get.mp hinv.completed_arr_sorted ⟨j, hj⟩ ⟨i, hi⟩ hij
    exact absurd harr (not_lt.mpr harr2)

/-- Witness for C3 on a run with two completed packets and real queueing. -/
theorem simulate_queue_fifo_no_overtaking_witness :
    (∀ n, 0 ≤ constStream (1/4) n) ∧ (∀ n, 0 ≤ constStream 1 n) ∧
    ∀ i j (hi : i < (finalState 1 (constStream (1/4)) (constStream 1) 3 10).packets_completed.length)
        (hj : j < (finalState 1 (constStream (1/4)) (constStream 1) 3 10).packets_completed.length),
      ((finalState 1 (constStream (1/4)) (constStream 1) 3 10).packets_completed.get ⟨i, hi⟩).arrival_time <
        ((finalState 1 (constStream (1/4)) (constStream 1) 3 10).packets_completed.get ⟨j, hj⟩).arrival_time →
      ∀ di dj,
        ((finalState 1 (constStream (1/4)) (constStream 1) 3 10).packets_completed.get ⟨i, hi⟩).departure_time
          = some di →
        ((finalState 1 (constStream (1/4)) (constStream 1) 3 10).packets_completed.get ⟨j, hj⟩).departure_time
          = some dj →
        di ≤ dj :=
  ⟨fun _ => by norm_num [constStream], fun _ => zero_le_one,
   simulate_queue_fifo_no_overtaking 1 (constStream (1/4)) (constStream 1) 3 10
     (fun _ => by norm_num [constStream]) (fun _ => zero_le_one)⟩

/-- Claim C5: in every run with non-negative sample streams, the two output
sequences are exactly the per-completed-packet total delays
(`departure − arrival`) and queueing delays (`start-of-service − arrival`),
one entry per completed packet in completion order (hence equal lengths).
A packet served immediately on arrival has `start_service = arrival_time`,
so its queueing-delay entry is `0`. -/
theorem simulate_queue_output_delays (arrival_rate : ℚ) (ia sv : ℕ → ℚ)
    (st : ℚ) (mp : ℕ) (hia : ∀ n, 0 ≤ ia n) (hsv : ∀ n, 0 ≤ sv n) :
    simulate_queue arrival_rate ia sv st mp =
      some ((finalState arrival_rate ia sv st mp).packets_completed.map
              (fun p => p.departure_time.getD 0 - p.arrival_time),
            (finalState arrival_rate ia sv st mp).packets_completed.map
              (fun p => p.start_service.getD 0 - p.arrival_time)) := by
  have hinv := invM_final arrival_rate ia sv st mp hia hsv
  have hdep : ∀ p ∈ (finalState arrival_rate ia sv st mp).packets_completed,
      p.departure_time ≠ none := by
    intro p hp
    obtain ⟨ss, dd, -, h2, -⟩ := hinv.completed_ok p hp
    simp [h2]
  have hmap : (finalState arrival_rate ia sv st mp).packets_completed.map
      (fun p =>
        match p.start_service with
        | none => (0 : ℚ)
        | some ss => if ss = 0 then 0 else ss - p.arrival_time) =
      (finalState arrival_rate ia sv st mp).packets_completed.map
      (fun p => p.start_service.getD 0 - p.arrival_time) := by
    apply List.map_congr_left
    intro p hp
    obtain ⟨ss, dd, h1, h2, h3, h4, h5, h6⟩ := hinv.completed_ok p hp
    simp only [h1, Option.getD_some]
    by_cases hss : ss = 0
    · rw [if_pos hss]
      have harr : p.arrival_time = 0 := le_antisymm (hss ▸ h4) h3
      rw [harr, hss]
      norm_num
    · rw [if_neg hss]
  rw [simulate_queue, collectResults_eq _ hdep, hmap]

/-- Witness for C5 on a run with two completed packets, one of which waited
in the queue. -/
theorem simulate_queue_output_delays_witness :
    simulate_queue 1 (constStream (1/4)) (constStream 1) 3 10 =
      some ((finalState 1 (constStream (1/4)) (constStream 1) 3 10).packets_completed.map
              (fun p => p.departure_time.getD 0 - p.arrival_time),
            (finalState 1 (constStream (1/4)) (constStream 1) 3 10).packets_completed.map
              (fun p => p.start_service.getD 0 - p.arrival_time)) :=
  simulate_queue_output_delays 1 (constStream (1/4)) (constStream 1) 3 10
    (fun _ => by norm_num [constStream]) (fun _ => zero_le_one)

/-!  ### The experiment runner (Claims C2, C6) -/

/-- `simulate_queue` never raises: it always returns a pair of lists. -/
theorem simulate_queue_eq_some (arrival_rate : ℚ) (ia sv : ℕ → ℚ) (st : ℚ) (mp : ℕ) :
    ∃ ds qs, simulate_queue arrival_rate ia sv st mp = some (ds, qs) := by
  have hinv := inv0_final arrival_rate ia sv st mp
  have hdep : ∀ p ∈ (finalState arrival_rate ia sv st mp).packets_completed,
      p.departure_time ≠ none := by
    intro p hp
    obtain ⟨ss, d, -, h2, -⟩ := hinv.completed p hp
    simp [h2]
  exact ⟨_, _, by rw [simulate_queue, collectResults_eq _ hdep]⟩

/-- The per-`rho` loop of `run_experiments` always returns one row per `rho`
value, whose analytic M/M/1 columns are the branch on `λ < μ` of lines
113-118 of `pooja.py`. -/
theorem buildRows_spec (mu stm sim_time : ℚ) (iaMM svMM iaMD : ℕ → ℕ → ℚ) :
    ∀ rl i rows, buildRows mu stm sim_time iaMM svMM iaMD i rl = some rows →
      rows.length = rl.length ∧
      ∀ k (hk : k < rows.length) (hk' : k < rl.length),
        (rows.get ⟨k, hk⟩).rho = rl.get ⟨k, hk'⟩ ∧
        (rows.get ⟨k, hk⟩).analytic_mm1_total_s =
          (if rl.get ⟨k, hk'⟩ * mu < mu
            then RVal.fin (1 / (mu - rl.get ⟨k, hk'⟩ * mu)) else RVal.inf) ∧
        (rows.get ⟨k, hk⟩).analytic_mm1_queue_s =
          (if rl.get ⟨k, hk'⟩ * mu < mu
            then RVal.fin (rl.get ⟨k, hk'⟩ / (mu - rl.get ⟨k, hk'⟩ * mu)) else RVal.inf) := by
  intro rl
  induction rl with
  | nil =>
    intro i rows hrows
    simp only [buildRows] at hrows
    refine ⟨by simp [← Option.some_inj.mp hrows], ?_⟩
    intro k hk hk'
    exact absurd hk' (Nat.not_lt_zero k)
  | cons rho rest ih =>
    intro i rows hrows
    obtain ⟨ds1, qs1, h1⟩ :=
      simulate_queue_eq_some (rho * mu) (iaMM i) (svMM i) sim_time 2000000
    obtain ⟨ds2, qs2, h2⟩ :=
      simulate_queue_eq_some (rho * mu) (iaMD i) (fun _ => stm) sim_time 2000000
    simp only [buildRows] at hrows
    rw [h1, h2] at hrows
    rcases hrest : buildRows mu stm sim_time iaMM svMM iaMD (i + 1) rest with _ | rows'
    · rw [hrest] at hrows
      exact absurd hrows (by simp)
    · rw [hrest] at hrows
      obtain ⟨hlen', hspec'⟩ := ih (i + 1) rows' hrest
      have hrows' : rows = _ :: rows' := (Option.some_inj.mp hrows).symm
      subst hrows'
      refine ⟨by simp [hlen'], ?_⟩
      intro k hk hk'
      cases k with
      | zero => exact ⟨rfl, rfl, rfl⟩
      | succ k =>
        exact hspec' k (Nat.lt_of_succ_lt_succ hk) (Nat.lt_of_succ_lt_succ hk')

/-- The `ZeroDivisionError` guards aside, `run_experiments` always produces
one row per `rho` value, with no validation of the configuration. -/
theorem run_experiments_rows (packet_size_bytes bandwidth_bps : ℚ) (rl : List ℚ)
    (st : ℚ) (iaMM svMM iaMD : ℕ → ℕ → ℚ)
    (h8 : packet_size_bytes * 8 ≠ 0)
    (hmu : bandwidth_bps / (packet_size_bytes * 8) ≠ 0) :
    ∃ rows, run_experiments packet_size_bytes bandwidth_bps rl st iaMM svMM iaMD =
      some rows ∧ rows.length = rl.length := by
  have hsome : ∀ i, ∃ rows, buildRows (bandwidth_bps / (packet_size_bytes * 8))
      (1 / (bandwidth_bps / (packet_size_bytes * 8))) st iaMM svMM iaMD i rl =
      some rows := by
    intro i
    induction rl generalizing i with
    | nil => exact ⟨[], rfl⟩
    | cons rho rest ih =>
      obtain ⟨ds1, qs1, h1⟩ := simulate_queue_eq_some
        (rho * (bandwidth_bps / (packet_size_bytes * 8))) (iaMM i) (svMM i) st 2000000
      obtain ⟨ds2, qs2, h2⟩ := simulate_queue_eq_some
        (rho * (bandwidth_bps / (packet_size_bytes * 8))) (iaMD i)
        (fun _ => 1 / (bandwidth_bps / (packet_size_bytes * 8))) st 2000000
      obtain ⟨rows', hrest⟩ := ih (i + 1)
      apply Option.isSome_iff_exists.mp
      simp only [buildRows]
      rw [h1, h2, hrest]
      rfl
  obtain ⟨rows, hrows⟩ := hsome 0
  obtain ⟨hlen, -⟩ := buildRows_spec _ _ _ _ _ _ rl 0 rows hrows
  refine ⟨rows, ?_, hlen⟩
  simp only [run_experiments]
  rw [if_neg h8, if_neg hmu]
  exact hrows

/-- Constant per-`rho` sample streams for concrete experiment runs. -/
def cS2 : ℕ → ℕ → ℚ := fun _ _ => 2

/-- Constant per-`rho` sample streams for concrete experiment runs. -/
def cSv1 : ℕ → ℕ → ℚ := fun _ _ => 1

/-- Counterexample to Claim C2 as stated: `run_experiments` performs no
validation.  Fed the malformed utilization `rho = 2` (outside `(0,1)`), it
does not reject the call — it returns a fully formed row (with infinite
analytic columns), instead of a descriptive failure. -/
theorem run_experiments_accepts_invalid_rho :
    ¬(0 < (2 : ℚ) ∧ (2 : ℚ) < 1) ∧
    run_experiments 1500 10000000 [2] 1 cS2 cSv1 cS2 =
      some [⟨2, 5000 / 3, 2500 / 3, 3 / 2500, RVal.nan, 0, RVal.nan, 0,
             RVal.inf, RVal.inf⟩] :=
  ⟨by norm_num, by with_unfolding_all rfl⟩

/-- Claim C2 (amended): the Experiment Runner does not reject malformed
configuration.  For any `rho` list whatsoever — including values outside
`(0,1)` — and any nonzero packet size and bandwidth (zero values hit the
division guards, the only failure mode), it silently produces exactly one
row per `rho` value. -/
theorem run_experiments_no_rejection (packet_size_bytes bandwidth_bps : ℚ)
    (rl : List ℚ) (st : ℚ) (iaMM svMM iaMD : ℕ → ℕ → ℚ)
    (h8 : packet_size_bytes * 8 ≠ 0)
    (hmu : bandwidth_bps / (packet_size_bytes * 8) ≠ 0) :
    ∃ rows, run_experiments packet_size_bytes bandwidth_bps rl st iaMM svMM iaMD =
      some rows ∧ rows.length = rl.length :=
  run_experiments_rows packet_size_bytes bandwidth_bps rl st iaMM svMM iaMD h8 hmu

/-- Witness for the amended C2: rows are produced even for the invalid
utilization `rho = 2`. -/
theorem run_experiments_no_rejection_witness :
    ∃ rows, run_experiments 1500 10000000 [2, 5] 1 cS2 cSv1 cS2 =
      some rows ∧ rows.length = [(2 : ℚ), 5].length :=
  run_experiments_no_rejection 1500 10000000 [2, 5] 1 cS2 cSv1 cS2
    (by norm_num) (by norm_num)

/-- Claim C6: for every `rho` in the sweep, with `μ = bandwidth_bps /
(packet_size_bytes * 8)` and `λ = rho * μ`, the analytic M/M/1 columns of the
produced row are `1 / (μ - λ)` and `rho / (μ - λ)` when `λ < μ`, and both are
infinite when `λ ≥ μ` (including equality). -/
theorem run_experiments_analytic_columns (packet_size_bytes bandwidth_bps : ℚ)
    (rl : List ℚ) (st : ℚ) (iaMM svMM iaMD : ℕ → ℕ → ℚ) (rows : List ExpRow)
    (hrun : run_experiments packet_size_bytes bandwidth_bps rl st iaMM svMM iaMD =
      some rows) :
    rows.length = rl.length ∧
    ∀ k (hk : k < rows.length) (hk' : k < rl.length),
      (rows.get ⟨k, hk⟩).rho = rl.get ⟨k, hk'⟩ ∧
      (rl.get ⟨k, hk'⟩ * (bandwidth_bps / (packet_size_bytes * 8)) <
          bandwidth_bps / (packet_size_bytes * 8) →
        (rows.get ⟨k, hk⟩).analytic_mm1_total_s =
          RVal.fin (1 / (bandwidth_bps / (packet_size_bytes * 8) -
            rl.get ⟨k, hk'⟩ * (bandwidth_bps / (packet_size_bytes * 8)))) ∧
        (rows.get ⟨k, hk⟩).analytic_mm1_queue_s =
          RVal.fin (rl.get ⟨k, hk'⟩ / (bandwidth_bps / (packet_size_bytes * 8) -
            rl.get ⟨k, hk'⟩ * (bandwidth_bps / (packet_size_bytes * 8))))) ∧
      (bandwidth_bps / (packet_size_bytes * 8) ≤
          rl.get ⟨k, hk'⟩ * (bandwidth_bps / (packet_size_bytes * 8)) →
        (rows.get ⟨k, hk⟩).analytic_mm1_total_s = RVal.inf ∧
        (rows.get ⟨k, hk⟩).analytic_mm1_queue_s = RVal.inf) := by
  by_cases h8 : packet_size_bytes * 8 = 0
  · exfalso
    simp only [run_experiments] at hrun
    rw [if_pos h8] at hrun
    exact Option.noConfusion hrun
  by_cases hmu : bandwidth_bps / (packet_size_bytes * 8) = 0
  · exfalso
    simp only [run_experiments] at hrun
    rw [if_neg h8, if_pos hmu] at hrun
    exact Option.noConfusion hrun
  have hrun' : buildRows (bandwidth_bps / (packet_size_bytes * 8))
      (1 / (bandwidth_bps / (packet_size_bytes * 8))) st iaMM svMM iaMD 0 rl =
      some rows := by
    simp only [run_experiments] at hrun
    rw [if_neg h8, if_neg hmu] at hrun
    exact hrun
  obtain ⟨hlen, hspec⟩ := buildRows_spec _ _ _ _ _ _ rl 0 rows hrun'
  refine ⟨hlen, ?_⟩
  intro k hk hk'
  obtain ⟨hrho, htot, hque⟩ := hspec k hk hk'
  refine ⟨hrho, ?_, ?_⟩
  · intro hlt
    rw [htot, hque, if_pos hlt, if_pos hlt]
    exact ⟨rfl, rfl⟩
  · intro hge
    rw [htot, hque, if_neg (not_lt.mpr hge), if_neg (not_lt.mpr hge)]
    exact ⟨rfl, rfl⟩

/-- Witness for C6 at `rho = 1/2` (stable) with concrete streams: the run is
evaluated concretely and the analytic columns instantiated. -/
theorem run_experiments_analytic_columns_witness :
    (run_experiments 1500 10000000 [(1 : ℚ) / 2] 1 cS2 cSv1 cS2 =
      some [⟨1 / 2, 1250 / 3, 2500 / 3, 3 / 2500, RVal.nan, 0, RVal.nan, 0,
             RVal.fin (3 / 1250), RVal.fin (3 / 2500)⟩]) ∧
    ([(⟨1 / 2, 1250 / 3, 2500 / 3, 3 / 2500, RVal.nan, 0, RVal.nan, 0,
        RVal.fin (3 / 1250), RVal.fin (3 / 2500)⟩ : ExpRow)].length =
      [(1 : ℚ) / 2].length ∧
     ∀ k (hk : k < [(⟨1 / 2, 1250 / 3, 2500 / 3, 3 / 2500, RVal.nan, 0, RVal.nan, 0,
          RVal.fin (3 / 1250), RVal.fin (3 / 2500)⟩ : ExpRow)].length)
        (hk' : k < [(1 : ℚ) / 2].length),
      ([(⟨1 / 2, 1250 / 3, 2500 / 3, 3 / 2500, RVal.nan, 0, RVal.nan, 0,
          RVal.fin (3 / 1250), RVal.fin (3 / 2500)⟩ : ExpRow)].get ⟨k, hk⟩).rho =
        [(1 : ℚ) / 2].get ⟨k, hk'⟩ ∧
      ([(1 : ℚ) / 2].get ⟨k, hk'⟩ * (10000000 / (1500 * 8)) < 10000000 / (1500 * 8) →
        ([(⟨1 / 2, 1250 / 3, 2500 / 3, 3 / 2500, RVal.nan, 0, RVal.nan, 0,
            RVal.fin (3 / 1250), RVal.fin (3 / 2500)⟩ : ExpRow)].get ⟨k, hk⟩).analytic_mm1_total_s =
          RVal.fin (1 / (10000000 / (1500 * 8) - [(1 : ℚ) / 2].get ⟨k, hk'⟩ * (10000000 / (1500 * 8)))) ∧
        ([(⟨1 / 2, 1250 / 3, 2500 / 3, 3 / 2500, RVal.nan, 0, RVal.nan, 0,
            RVal.fin (3 / 1250), RVal.fin (3 / 2500)⟩ : ExpRow)].get ⟨k, hk⟩).analytic_mm1_queue_s =
          RVal.fin ([(1 : ℚ) / 2].get ⟨k, hk'⟩ / (10000000 / (1500 * 8) - [(1 : ℚ) / 2].get ⟨k, hk'⟩ * (10000000 / (1500 * 8))))) ∧
      (10000000 / (1500 * 8) ≤ [(1 : ℚ) / 2].get ⟨k, hk'⟩ * (10000000 / (1500 * 8)) →
        ([(⟨1 / 2, 1250 / 3, 2500 / 3, 3 / 2500, RVal.nan, 0, RVal.nan, 0,
            RVal.fin (3 / 1250), RVal.fin (3 / 2500)⟩ : ExpRow)].get ⟨k, hk⟩).analytic_mm1_total_s = RVal.inf ∧
        ([(⟨1 / 2, 1250 / 3, 2500 / 3, 3 / 2500, RVal.nan, 0, RVal.nan, 0,
            RVal.fin (3 / 1250), RVal.fin (3 / 2500)⟩ : ExpRow)].get ⟨k, hk⟩).analytic_mm1_queue_s = RVal.inf)) :=
  have hrun : run_experiments 1500 10000000 [(1 : ℚ) / 2] 1 cS2 cSv1 cS2 =
      some [⟨1 / 2, 1250 / 3, 2500 / 3, 3 / 2500, RVal.nan, 0, RVal.nan, 0,
             RVal.fin (3 / 1250), RVal.fin (3 / 2500)⟩] := by with_unfolding_all rfl
  ⟨hrun, run_experiments_analytic_columns 1500 10000000 [(1 : ℚ) / 2] 1 cS2 cSv1 cS2 _ hrun⟩

/-!  ### The closed-form delay formulas (Claim C9) -/

/-- Round-half-to-even is the identity on integers. -/
theorem roundHalfEven_intCast (k : ℤ) : roundHalfEven (k : ℚ) = k := by
  unfold roundHalfEven
  simp only [Int.floor_intCast, sub_self]
  norm_num

/-- `round6` is exact on rationals with at most six decimal places. -/
theorem round6_exact (x : ℚ) (k : ℤ) (hx : x = (k : ℚ) / 1000000) :
    round6 x = x := by
  have hmul : x * 1000000 = (k : ℚ) := by
    rw [hx]
    field_simp
  rw [round6, hmul, roundHalfEven_intCast, ← hx]

/-- Counterexample to Claim C9 as stated: the delay functions do not compute
the exact quotients — they round to six decimal places (`round(delay, 6)`).
`transmission_delay(1, 3)` returns `0.333333`, not `1/3`. -/
theorem transmission_delay_not_exact_quotient :
    transmission_delay 1 3 = RVal.fin (333333 / 1000000) ∧
    transmission_delay 1 3 ≠ RVal.fin (1 / 3) := by
  have h1 : transmission_delay 1 3 = RVal.fin (333333 / 1000000) := by
    with_unfolding_all rfl
  refine ⟨h1, ?_⟩
  rw [h1]
  intro habs
  simp only [RVal.fin.injEq] at habs
  norm_num at habs

/-- Claim C9 (amended): the closed-form delay functions compute the stated
quotients *rounded to six decimal places* — hence exactly the quotient
whenever it has at most six decimals — and the saturation cases are as
claimed: zero bandwidth and `service rate ≤ arrival rate` yield the explicit
infinite-delay value instead of a fault. -/
theorem delay_formulas_rounded (s b q ar sr : ℚ) (k m : ℤ)
    (hb : b ≠ 0) (hsr : ar < sr)
    (hk : s / b = (k : ℚ) / 1000000)
    (hm : q / (sr - ar) = (m : ℚ) / 1000000) :
    transmission_delay s b = RVal.fin (s / b) ∧
    congestion_delay q ar sr = RVal.fin (q / (sr - ar)) ∧
    transmission_delay s 0 = RVal.inf ∧
    congestion_delay q sr ar = RVal.inf := by
  refine ⟨?_, ?_, ?_, ?_⟩
  · rw [transmission_delay, if_neg hb, round6_exact _ k hk]
  · rw [congestion_delay, if_neg (not_le.mpr hsr), round6_exact _ m hm]
  · rw [transmission_delay, if_pos rfl]
  · rw [congestion_delay, if_pos (le_of_lt hsr)]

/-- Witness for the amended C9 at the concrete inputs of the module's own
example run: an 8000-bit packet on a 1 Mbps link, and a queue of 10 packets
with arrival rate 5 and service rate 10. -/
theorem delay_formulas_rounded_witness :
    transmission_delay 8000 1000000 = RVal.fin (8000 / 1000000) ∧
    congestion_delay 10 5 10 = RVal.fin (10 / (10 - 5)) ∧
    transmission_delay 8000 0 = RVal.inf ∧
    congestion_delay 10 10 5 = RVal.inf :=
  delay_formulas_rounded 8000 1000000 10 5 10 8000 2000000
    (by norm_num) (by norm_num) (by norm_num) (by norm_num)
